import Mathlib

/-!
Verification of the subtitle timeline pipeline of `scripts/generate-video.js`
(repository `motyar/audio2mp4`).

The script converts word-level speech timestamps into a timed sequence of
subtitle frames and an FFmpeg concat timeline.  We embed the pure core of the
script — word-stream normalization (`loadWords`), chunk grouping
(`buildChunks`), karaoke frame expansion (in `main`), the concat-timeline
builder (`buildConcatFile`), the karaoke highlight predicate (in `buildSvg`)
and XML escaping (`escapeXml`) — as executable Lean functions, and prove the
specified properties about them.

Modelling conventions:
* JavaScript numbers (timestamps, durations) are embedded as exact rationals
  `ℚ`; the numeric literals of the script (`0.3`, `0.01`, `0.033`, …) become
  the corresponding rationals.
* JavaScript's falsy-defaulting `a || b` on numbers is `jsOr` below
  (`0` and absent both fall back to the default).
* The source field `end` is a Lean keyword and is written `«end»`.
-/

/-- A word-level timestamp record `{word, start, end}` from `words.json`. -/
structure Word where
  word : String
  start : ℚ
  «end» : ℚ
  deriving Repr, DecidableEq

/-- The `--mode` option: `word`, `chunk` or `karaoke`. -/
inductive Mode
  | word
  | chunk
  | karaoke
  deriving Repr, DecidableEq

/-- The style fields of `video-style.json` that the embedded core reads.
`none` models an absent field (JS `undefined`). -/
structure Style where
  animationPauseThreshold : Option ℚ := none
  textMaxChunkSize : Option ℕ := none
  videoFps : Option ℕ := none
  deriving Repr, DecidableEq

/-- JS numeric defaulting `x || d` for a possibly-absent number: both an
absent field and the falsy value `0` fall back to the default. -/
def jsOrQ (x : Option ℚ) (d : ℚ) : ℚ :=
  match x with
  | none => d
  | some v => if v = 0 then d else v

/-- JS numeric defaulting `x || d` for a possibly-absent natural number. -/
def jsOrN (x : Option ℕ) (d : ℕ) : ℕ :=
  match x with
  | none => d
  | some v => if v = 0 then d else v

/-- Defaulting `(style.animation && style.animation.pauseThreshold) || 0.3`. -/
def pauseThresholdOf (s : Style) : ℚ := jsOrQ s.animationPauseThreshold (3/10)

/-- Defaulting `(style.text && style.text.maxChunkSize) || 4`. -/
def maxChunkSizeOf (s : Style) : ℕ := jsOrN s.textMaxChunkSize 4

/-- Defaulting `(styleRaw.video && styleRaw.video.fps) || 30`. -/
def fpsOf (s : Style) : ℕ := jsOrN s.videoFps 30

/-- A display chunk `{words, start, end}` as produced by `buildChunks`. -/
structure Chunk where
  words : List Word
  start : ℚ
  «end» : ℚ
  deriving Repr, DecidableEq

/-- The grouping loop of `buildChunks` (lines 84–107 of the script) for the
`chunk`/`karaoke` modes.  The first list is the open chunk `current` (in
input order), the second the remaining words.  A close pushes
`{words: current, start: current[0].start, end: prev.end}` where `prev` is
the last word of `current`; the final flush uses the last word's `end`. -/
def chunkLoop (pT : ℚ) (mCS : ℕ) : List Word → List Word → List Chunk
  | [], [] => []
  | c :: cs, [] =>
    [⟨c :: cs, c.start, ((c :: cs).getLast (List.cons_ne_nil c cs)).«end»⟩]
  | [], w :: ws => chunkLoop pT mCS [w] ws
  | c :: cs, w :: ws =>
    let prev := (c :: cs).getLast (List.cons_ne_nil c cs)
    if pT < w.start - prev.«end» ∨ mCS ≤ (c :: cs).length then
      ⟨c :: cs, c.start, prev.«end»⟩ :: chunkLoop pT mCS [w] ws
    else
      chunkLoop pT mCS (c :: cs ++ [w]) ws

/-- The function `buildChunks(words, style, mode)`: `word` mode makes a one-word chunk per
word; `chunk` and `karaoke` both run the grouping loop. -/
def buildChunks (words : List Word) (style : Style) (mode : Mode) : List Chunk :=
  if mode = Mode.word then
    words.map fun w => ⟨[w], w.start, w.«end»⟩
  else
    chunkLoop (pauseThresholdOf style) (maxChunkSizeOf style) [] words

/-- A renderable frame.  In karaoke mode `main` pushes
`{...chunk, activeStart: wo.start, activeEnd: wo.end, start: wo.start,
end: wo.end}` (the spread keeps `words`, but `start`/`end` are overwritten by
the active word's times); in the other modes frames are the chunks
themselves, with no active window (`none`). -/
structure Frame where
  words : List Word
  start : ℚ
  «end» : ℚ
  activeStart : Option ℚ
  activeEnd : Option ℚ
  deriving Repr, DecidableEq

/-- The identity embedding of a chunk as a frame (non-karaoke modes). -/
def chunkToFrame (c : Chunk) : Frame := ⟨c.words, c.start, c.«end», none, none⟩

/-- The frame-expansion step of `main` (lines 303–318): for karaoke (with a
nonempty chunk list) one frame per word of each chunk, otherwise
`frames = chunks`. -/
def expandFrames (mode : Mode) (chunks : List Chunk) : List Frame :=
  if mode = Mode.karaoke ∧ chunks ≠ [] then
    chunks.flatMap fun c =>
      c.words.map fun wo => ⟨c.words, wo.start, wo.«end», some wo.start, some wo.«end»⟩
  else
    chunks.map chunkToFrame

/-- The chunk stage of `main` (line 299): `words.length > 0 ? buildChunks(...) : []`,
followed by frame expansion. -/
def mainFrames (words : List Word) (style : Style) (mode : Mode) : List Frame :=
  expandFrames mode (if 0 < words.length then buildChunks words style mode else [])

/-- The duration fallback of `main` (lines 326–329): if the probed audio duration
is `0` and there are words, use the last word's `end`. -/
def effectiveDuration (probed : ℚ) : List Word → ℚ
  | [] => probed
  | w :: ws => if probed = 0 then (ws.getLastD w).«end» else probed

/-- One entry of `frameFiles` (line 340): the on-screen interval of a
rendered PNG.  The file path itself is irrelevant to the timing claims. -/
structure FrameFile where
  start : ℚ
  «end» : ℚ
  deriving Repr, DecidableEq

/-- The push `frameFiles.push({path, start: frame.start, end: frame.end})`. -/
def toFrameFiles (frames : List Frame) : List FrameFile :=
  frames.map fun f => ⟨f.start, f.«end»⟩

/-- One `file`/`duration` pair of the FFmpeg concat file: either the blank
filler image or a content frame, each with a duration in seconds. -/
inductive Entry
  | filler (duration : ℚ)
  | content (frame : FrameFile) (duration : ℚ)
  deriving Repr, DecidableEq

/-- The duration of a timeline entry. -/
def Entry.duration : Entry → ℚ
  | .filler d => d
  | .content _ d => d

/-- Whether an entry is a blank-image filler. -/
def Entry.isFiller : Entry → Bool
  | .filler _ => true
  | .content _ _ => false

/-- Whether an entry is a zero-duration filler. -/
def Entry.isZeroFiller (e : Entry) : Bool :=
  e.isFiller && decide (e.duration = 0)

/-- The cursor loop of `buildConcatFile` (lines 405–423): for each frame,
emit a filler when `frame.start - cursor > 0.01`, then a content entry of
duration `max(frame.end - frame.start, 0.033)`, then advance the cursor to
`frame.end`; after the last frame, fill to the end of the audio when
`cursor < audioDuration - 0.01`. -/
def buildConcatGo (audioDuration : ℚ) (cursor : ℚ) : List FrameFile → List Entry
  | [] =>
    if cursor < audioDuration - 1/100 then [.filler (audioDuration - cursor)] else []
  | f :: rest =>
    (if 1/100 < f.start - cursor then [Entry.filler (f.start - cursor)] else []) ++
      Entry.content f (max (f.«end» - f.start) (33/1000)) ::
        buildConcatGo audioDuration f.«end» rest

/-- The function `buildConcatFile(frameFiles, blankPath, audioDuration)` restricted to its
`file`/`duration` pairs.  When the loop emits no pair at all (no frames and
no final filler), the fallback of lines 431–433 writes a single blank filler
of duration `audioDuration`.  The trailing duration-less `file` line that the
concat demuxer requires (line 427–429) carries no duration and is not a
timeline entry. -/
def buildConcatFile (frames : List FrameFile) (audioDuration : ℚ) : List Entry :=
  if buildConcatGo audioDuration 0 frames = [] then [Entry.filler audioDuration]
  else buildConcatGo audioDuration 0 frames

/-- Modelled from the spec for the refinement comparison of the claim that
the content-duration floor is "one output frame period (`1/fps`)": the same
cursor loop with the floor as a parameter `minDur` in place of the script's
constant `0.033`. -/
def specMinEntries (minDur : ℚ) (audioDuration : ℚ) (cursor : ℚ) :
    List FrameFile → List Entry
  | [] =>
    if cursor < audioDuration - 1/100 then [.filler (audioDuration - cursor)] else []
  | f :: rest =>
    (if 1/100 < f.start - cursor then [Entry.filler (f.start - cursor)] else []) ++
      Entry.content f (max (f.«end» - f.start) minDur) ::
        specMinEntries minDur audioDuration f.«end» rest

/-- Well-spacedness of a frame list relative to a cursor and a total
duration: every gap (before each frame and after the last frame) is either
zero or larger than the `0.01` epsilon, and every frame lasts at least
`0.033`.  These are the non-degeneracy conditions under which the cursor
loop loses no time. -/
def okFrom (cursor audioDuration : ℚ) : List FrameFile → Bool
  | [] =>
    decide (audioDuration - cursor = 0 ∨ 1/100 < audioDuration - cursor)
  | f :: rest =>
    decide (f.start - cursor = 0 ∨ 1/100 < f.start - cursor) &&
      decide (33/1000 ≤ f.«end» - f.start) &&
        okFrom f.«end» audioDuration rest

/-- The karaoke highlight predicate of `buildSvg` (line 181):
`(wo.start <= (activeEnd || wo.end)) && (wo.end >= (activeStart || wo.start))`,
with JS falsy defaulting on the active window bounds. -/
def isActive (wo : Word) (activeStart activeEnd : ℚ) : Bool :=
  decide (wo.start ≤ (if activeEnd = 0 then wo.«end» else activeEnd)) &&
    decide ((if activeStart = 0 then wo.start else activeStart) ≤ wo.«end»)

/-- The double-quote character, `"` (U+0022). -/
def quotChar : Char := Char.ofNat 34

/-- The apostrophe character (U+0027). -/
def aposChar : Char := Char.ofNat 39

/-- One global single-character regex replacement, `s.replace(/pat/g, rep)`,
at the character-list level. -/
def replaceAll (pat : Char) (rep : List Char) (s : List Char) : List Char :=
  s.flatMap fun c => if c = pat then rep else [c]

/-- The function `escapeXml` (lines 114–121): the five sequential global replacements
`& → &amp;`, `< → &lt;`, `> → &gt;`, `" → &quot;`, `' → &apos;`, in source
order, over the character list of the input string. -/
def escapeXml (s : List Char) : List Char :=
  replaceAll aposChar "&apos;".data
    (replaceAll quotChar "&quot;".data
      (replaceAll '>' "&gt;".data
        (replaceAll '<' "&lt;".data
          (replaceAll '&' "&amp;".data s))))

/-- The per-character escaping map: each of the five XML special characters
becomes its entity, every other character passes through unchanged.  Used to
state what `escapeXml` does to each occurrence. -/
def escapeChar (c : Char) : List Char :=
  if c = '&' then "&amp;".data
  else if c = '<' then "&lt;".data
  else if c = '>' then "&gt;".data
  else if c = quotChar then "&quot;".data
  else if c = aposChar then "&apos;".data
  else [c]

/-- Whether a character is one of the four markup-breaking characters that
must never appear raw in escaped output (`&` does appear, as the head of the
emitted entities). -/
def isRawMarkupChar (c : Char) : Bool :=
  c = '<' || c = '>' || c = quotChar || c = aposChar

/-- The wrapper shape returned by `loadWords`: the fields of the object
format of `words.json`.  `none` models an absent field. -/
structure WordsDoc where
  language : Option String
  language_probability : Option ℚ
  words : Option (List Word)
  deriving Repr, DecidableEq

/-- A parsed `words.json` document: either the legacy bare array of words or
the object format. -/
inductive WordsJson
  | arr (ws : List Word)
  | obj (doc : WordsDoc)
  deriving Repr, DecidableEq

/-- The function `loadWords` (lines 53–59) on the parsed document: an array is wrapped as
`{language: 'en', language_probability: 1, words: raw}`; anything else is
returned as-is. -/
def loadWords : WordsJson → WordsDoc
  | .arr ws => ⟨some "en", some 1, some ws⟩
  | .obj d => d

/-- The function `loadWords` including the fallible parse stage: a `JSON.parse` error
propagates unchanged, a parsed document is normalized by `loadWords`. -/
def loadWordsE : Except String WordsJson → Except String WordsDoc
  | .error e => .error e
  | .ok j => .ok (loadWords j)

/-! ### Helper lemmas about `escapeXml` -/

/-- The five sequential replacements act independently on each character:
pushing the composition through `flatMap` exposes a per-character map. -/
theorem escapeXml_eq_flatMap (s : List Char) : escapeXml s = s.flatMap escapeChar := by
  have h : escapeXml s = s.flatMap fun c =>
      replaceAll aposChar "&apos;".data
        (replaceAll quotChar "&quot;".data
          (replaceAll '>' "&gt;".data
            (replaceAll '<' "&lt;".data
              (if c = '&' then "&amp;".data else [c])))) := by
    simp only [escapeXml, replaceAll, List.flatMap_assoc]
  rw [h]
  refine List.flatMap_congr fun c _ => ?_
  by_cases h1 : c = '&'
  · subst h1; decide
  by_cases h2 : c = '<'
  · subst h2; decide
  by_cases h3 : c = '>'
  · subst h3; decide
  by_cases h4 : c = quotChar
  · subst h4; decide
  by_cases h5 : c = aposChar
  · subst h5; decide
  simp [replaceAll, escapeChar, h1, h2, h3, h4, h5]

/-- No output character of `escapeChar` is a raw markup-breaking character. -/
theorem escapeChar_no_raw (c : Char) :
    ∀ d ∈ escapeChar c, isRawMarkupChar d = false := by
  by_cases h1 : c = '&'
  · subst h1; decide
  by_cases h2 : c = '<'
  · subst h2; decide
  by_cases h3 : c = '>'
  · subst h3; decide
  by_cases h4 : c = quotChar
  · subst h4; decide
  by_cases h5 : c = aposChar
  · subst h5; decide
  intro d hd
  simp only [escapeChar, h1, h2, h3, h4, h5, if_false, List.mem_singleton] at hd
  subst hd
  simp [isRawMarkupChar, h2, h3, h4, h5]



/-! ### C8 — Word Stream Normalizer -/

/-- C8 (counterexample): the claim says the language field defaults to a
fixed fallback code whenever it is absent, but `loadWords` returns an object
document unchanged, so a wrapper without a `language` field keeps
`language` absent (no `'en'` default is applied at load time). -/
theorem loadWords_no_default_on_obj :
    (loadWords (WordsJson.obj ⟨none, none, some []⟩)).language = none ∧
      (none : Option String) ≠ some "en" := ⟨rfl, by simp⟩

/-- C8 (amended): `loadWords` always returns the wrapper shape; a bare array
is wrapped as `{language: 'en', language_probability: 1, words: raw}` (the
`'en'` default applies exactly to this case), an object document is returned
unchanged — an absent `language` stays absent — and the only failure is a
propagated parse error. -/
theorem loadWords_shape :
    (∀ ws : List Word, loadWords (.arr ws) = ⟨some "en", some 1, some ws⟩) ∧
      (∀ d : WordsDoc, loadWords (.obj d) = d) ∧
        (∀ e : String, loadWordsE (.error e) = .error e) ∧
          (∀ j : WordsJson, loadWordsE (.ok j) = .ok (loadWords j)) :=
  ⟨fun _ => rfl, fun _ => rfl, fun _ => rfl, fun _ => rfl⟩

/-- Closed instance of the C8 theorem at a concrete bare-array input. -/
theorem loadWords_shape_witness :
    loadWords (.arr [⟨"hi", 0, 1⟩]) = ⟨some "en", some 1, some [⟨"hi", 0, 1⟩]⟩ :=
  loadWords_shape.1 [⟨"hi", 0, 1⟩]

/-! ### C10 — XML escaping -/

/-- C10: `escapeXml` replaces every occurrence of each of the five XML
special characters by its entity — the five sequential global replacements
equal the per-character map `escapeChar` — and consequently no raw `<`, `>`,
`"` or `'` survives into the interpolated SVG text (the remaining `&`
characters are exactly the heads of emitted entities, by the per-character
equation).  `buildSvg` passes word text (line 184), font family (lines 194
and 220) and the language tag (line 143) through `escapeXml` before
interpolation. -/
theorem escapeXml_escapes_every_occurrence (s : List Char) :
    escapeXml s = s.flatMap escapeChar ∧
      (escapeXml s).all (fun d => !(isRawMarkupChar d)) = true := by
  refine ⟨escapeXml_eq_flatMap s, ?_⟩
  rw [List.all_eq_true]
  intro d hd
  rw [escapeXml_eq_flatMap] at hd
  rcases List.mem_flatMap.mp hd with ⟨c, _, hc⟩
  simp [escapeChar_no_raw c d hc]

/-- Closed instance of the C10 theorem at a concrete input containing all
five special characters. -/
theorem escapeXml_escapes_witness :
    escapeXml "a<b&c".data = "a<b&c".data.flatMap escapeChar ∧
      (escapeXml "a<b&c".data).all (fun d => !(isRawMarkupChar d)) = true :=
  escapeXml_escapes_every_occurrence "a<b&c".data

/-! ### C3 — karaoke highlight classification -/

/-- C3: for data-model words (nonnegative `start ≤ end`) and an active
window taken from such a word (`0 ≤ activeStart`, `0 < activeEnd`), the
highlight test of `buildSvg` line 181 classifies a word active exactly when
its closed interval `[start, end]` intersects the closed window
`[activeStart, activeEnd]` — intersection, not containment.  The JS falsy
fallbacks `activeEnd || wo.end` and `activeStart || wo.start` are harmless
under these bounds: `activeEnd = 0` cannot occur, and when `activeStart = 0`
both the fallback test and the intersection test are trivially true. -/
theorem isActive_iff_overlap (wo : Word) (aS aE : ℚ)
    (h0 : 0 ≤ wo.start) (h1 : wo.start ≤ wo.«end») (h2 : 0 ≤ aS) (h3 : 0 < aE) :
    isActive wo aS aE = true ↔ (wo.start ≤ aE ∧ aS ≤ wo.«end») := by
  simp only [isActive, Bool.and_eq_true, decide_eq_true_eq]
  rw [if_neg (ne_of_gt h3)]
  by_cases h : aS = 0
  · subst h
    rw [if_pos rfl]
    exact ⟨fun ⟨ha, _⟩ => ⟨ha, le_trans h0 h1⟩, fun ⟨ha, _⟩ => ⟨ha, h1⟩⟩
  · rw [if_neg h]

/-- Closed instance of the C3 theorem at the spec's own example: for unit
`["this", "is"]` with the frame window of word "is" (`0.5–0.9`), "this"
(`0.0–0.4`) is inactive and "is" (`0.5–0.9`) is active. -/
theorem isActive_iff_overlap_witness :
    isActive ⟨"this", 0, 2/5⟩ (1/2) (9/10) = false ∧
      (isActive ⟨"is", 1/2, 9/10⟩ (1/2) (9/10) = true ↔
        ((1:ℚ)/2 ≤ 9/10 ∧ (1:ℚ)/2 ≤ 9/10)) :=
  ⟨by norm_num [isActive],
    isActive_iff_overlap ⟨"is", 1/2, 9/10⟩ (1/2) (9/10)
      (by norm_num) (by norm_num) (by norm_num) (by norm_num)⟩

/-! ### C5 — frame expansion counts -/

/-- C5: karaoke expansion yields exactly one frame per word of each chunk,
in word order — each frame keeps the chunk's full word list and takes the
word's own timestamps as its active window — so the frame count is the total
word count; in `word` and `chunk` mode the frames are the chunks themselves,
one-to-one. -/
theorem expandFrames_one_per_word (chunks : List Chunk) :
    expandFrames Mode.karaoke chunks =
      (chunks.flatMap fun c => c.words.map fun wo =>
        ⟨c.words, wo.start, wo.«end», some wo.start, some wo.«end»⟩) ∧
      (expandFrames Mode.karaoke chunks).length =
        (chunks.map fun c => c.words.length).sum ∧
        expandFrames Mode.word chunks = chunks.map chunkToFrame ∧
          expandFrames Mode.chunk chunks = chunks.map chunkToFrame := by
  have hk : expandFrames Mode.karaoke chunks =
      chunks.flatMap fun c => c.words.map fun wo =>
        ⟨c.words, wo.start, wo.«end», some wo.start, some wo.«end»⟩ := by
    by_cases h : chunks = []
    · subst h; rfl
    · simp [expandFrames, h]
  refine ⟨hk, ?_, by simp [expandFrames], by simp [expandFrames]⟩
  rw [hk, List.length_flatMap]
  congr 1
  refine List.map_congr_left fun c _ => ?_
  simp

/-- Closed instance of the C5 theorem at a two-word chunk. -/
theorem expandFrames_one_per_word_witness :
    (expandFrames Mode.karaoke [⟨[⟨"a", 0, 1⟩, ⟨"b", 2, 3⟩], 0, 3⟩]).length =
      ([⟨[⟨"a", 0, 1⟩, ⟨"b", 2, 3⟩], 0, 3⟩].map fun c : Chunk => c.words.length).sum :=
  (expandFrames_one_per_word [⟨[⟨"a", 0, 1⟩, ⟨"b", 2, 3⟩], 0, 3⟩]).2.1

/-! ### C4 — the karaoke frame's own interval -/

/-- C4 (counterexample): the claim says a karaoke frame's `start` equals its
unit's first word's start, but `main` overwrites `start`/`end` with the
active word's timestamps: for the unit `["hello"(0–0.4), "world"(0.5–0.9)]`
the second frame has `start = 0.5`, not the first word's `0`. -/
theorem karaoke_frame_overwrites_start :
    (expandFrames Mode.karaoke
        [⟨[⟨"hello", 0, 2/5⟩, ⟨"world", 1/2, 9/10⟩], 0, 9/10⟩]).map Frame.start =
      [0, 1/2] ∧
      (([⟨"hello", 0, 2/5⟩, ⟨"world", 1/2, 9/10⟩] : List Word).head?.map Word.start =
        some 0) ∧
        ((1:ℚ)/2) ≠ 0 := by
  refine ⟨?_, rfl, by norm_num⟩
  norm_num [expandFrames]

/-- C4 (amended): a karaoke frame keeps its source unit's full word list and
carries the active word's window, but its `start` and `end` are overwritten
to that word's own timestamps (`activeStart = start`, `activeEnd = end`);
for data-model units (every word inside `[unit.start, unit.end]` with
`start ≤ end`) the window satisfies `activeStart ≤ activeEnd` and lies
within the unit's interval. -/
theorem karaoke_frame_active_window (chunks : List Chunk)
    (h : ∀ c ∈ chunks, ∀ w ∈ c.words,
      c.start ≤ w.start ∧ w.start ≤ w.«end» ∧ w.«end» ≤ c.«end») :
    ∀ f ∈ expandFrames Mode.karaoke chunks,
      f.activeStart = some f.start ∧ f.activeEnd = some f.«end» ∧
        ∃ c ∈ chunks, f.words = c.words ∧
          c.start ≤ f.start ∧ f.start ≤ f.«end» ∧ f.«end» ≤ c.«end» := by
  intro f hf
  by_cases hc : chunks = []
  · subst hc; simp [expandFrames] at hf
  rw [expandFrames, if_pos ⟨rfl, hc⟩] at hf
  rcases List.mem_flatMap.mp hf with ⟨c, hcmem, hf2⟩
  rcases List.mem_map.mp hf2 with ⟨wo, hwo, rfl⟩
  obtain ⟨hws, hse, hec⟩ := h c hcmem wo hwo
  exact ⟨rfl, rfl, c, hcmem, rfl, hws, hse, hec⟩

/-- Closed instance of the C4 theorem at the "world" frame of the unit
`["hello", "world"]`. -/
theorem karaoke_frame_active_window_witness :
    (⟨[⟨"hello", 0, 2/5⟩, ⟨"world", 1/2, 9/10⟩], 1/2, 9/10,
        some (1/2), some (9/10)⟩ : Frame).activeStart =
      some (⟨[⟨"hello", 0, 2/5⟩, ⟨"world", 1/2, 9/10⟩], 1/2, 9/10,
        some (1/2), some (9/10)⟩ : Frame).start ∧
      (⟨[⟨"hello", 0, 2/5⟩, ⟨"world", 1/2, 9/10⟩], 1/2, 9/10,
        some (1/2), some (9/10)⟩ : Frame).activeEnd =
        some (⟨[⟨"hello", 0, 2/5⟩, ⟨"world", 1/2, 9/10⟩], 1/2, 9/10,
          some (1/2), some (9/10)⟩ : Frame).«end» ∧
        ∃ c ∈ [(⟨[⟨"hello", 0, 2/5⟩, ⟨"world", 1/2, 9/10⟩], 0, 9/10⟩ : Chunk)],
          (⟨[⟨"hello", 0, 2/5⟩, ⟨"world", 1/2, 9/10⟩], 1/2, 9/10,
            some (1/2), some (9/10)⟩ : Frame).words = c.words ∧
            c.start ≤ (1/2 : ℚ) ∧ (1/2 : ℚ) ≤ (9/10 : ℚ) ∧ (9/10 : ℚ) ≤ c.«end» :=
  karaoke_frame_active_window
    [⟨[⟨"hello", 0, 2/5⟩, ⟨"world", 1/2, 9/10⟩], 0, 9/10⟩]
    (by
      intro c hc w hw
      simp only [List.mem_singleton] at hc
      subst hc
      simp only [List.mem_cons, List.not_mem_nil, or_false] at hw
      rcases hw with rfl | rfl <;> norm_num)
    _
    (by norm_num [expandFrames])

/-! ### C7 — empty word list -/

/-- C7: with no input words the pipeline produces no frames and the concat
timeline is the single filler entry spanning the whole duration — via the
final-fill branch when `totalDuration > 0.01`, and via the empty-timeline
fallback of lines 431–433 otherwise (in particular a zero-duration filler
when the duration is undeterminable, which `effectiveDuration` leaves at
`0`). -/
theorem emptyWords_single_filler (style : Style) (mode : Mode) (d : ℚ) :
    buildConcatFile (toFrameFiles (mainFrames [] style mode)) d = [Entry.filler d] ∧
      effectiveDuration 0 [] = 0 := by
  refine ⟨?_, rfl⟩
  have h1 : mainFrames [] style mode = [] := by
    simp [mainFrames, expandFrames]
  rw [h1]
  show buildConcatFile [] d = _
  unfold buildConcatFile buildConcatGo
  by_cases h : (0:ℚ) < d - 1/100
  · rw [if_pos h]; simp
  · rw [if_neg h]; rfl

/-- Closed instance of the C7 theorem at duration `0` (undeterminable) in
karaoke mode. -/
theorem emptyWords_single_filler_witness :
    buildConcatFile (toFrameFiles (mainFrames [] {} Mode.karaoke)) 0 =
      [Entry.filler 0] ∧ effectiveDuration 0 [] = 0 :=
  emptyWords_single_filler {} Mode.karaoke 0

/-! ### Helper lemmas about the concat timeline -/

/-- Under the well-spacedness conditions the cursor loop accounts for every
second between the cursor and the end of the audio. -/
theorem buildConcatGo_sum (aD : ℚ) :
    ∀ (frames : List FrameFile) (cursor : ℚ), okFrom cursor aD frames = true →
      ((buildConcatGo aD cursor frames).map Entry.duration).sum = aD - cursor := by
  intro frames
  induction frames with
  | nil =>
    intro cursor h
    simp only [okFrom, decide_eq_true_eq] at h
    unfold buildConcatGo
    rcases h with h | h
    · rw [if_neg (by linarith)]
      simp only [List.map_nil, List.sum_nil]
      linarith
    · rw [if_pos (by linarith)]
      simp [Entry.duration]
  | cons f rest ih =>
    intro cursor h
    simp only [okFrom, Bool.and_eq_true, decide_eq_true_eq] at h
    obtain ⟨⟨hgap, hdur⟩, hrest⟩ := h
    have hmax : max (f.«end» - f.start) (33/1000) = f.«end» - f.start :=
      max_eq_left (by linarith)
    have hsum := ih f.«end» hrest
    unfold buildConcatGo
    rcases hgap with h0 | hbig
    · rw [if_neg (by rw [h0]; norm_num)]
      simp only [List.nil_append, List.map_cons, List.sum_cons, Entry.duration, hmax, hsum]
      linarith
    · rw [if_pos hbig]
      simp only [List.singleton_append, List.map_cons, List.sum_cons, Entry.duration,
        hmax, hsum]
      ring

/-- Every entry the cursor loop emits has strictly positive duration: a
filler is only emitted for a gap above the `0.01` epsilon and a content
entry is floored at `0.033`. -/
theorem buildConcatGo_pos (aD : ℚ) :
    ∀ (frames : List FrameFile) (cursor : ℚ),
      ∀ e ∈ buildConcatGo aD cursor frames, 0 < e.duration := by
  intro frames
  induction frames with
  | nil =>
    intro cursor e he
    unfold buildConcatGo at he
    split at he
    · rw [List.mem_singleton] at he
      subst he
      simp only [Entry.duration]
      linarith
    · simp at he
  | cons f rest ih =>
    intro cursor e he
    unfold buildConcatGo at he
    rw [List.mem_append] at he
    rcases he with he | he
    · split at he
      · rw [List.mem_singleton] at he
        subst he
        simp only [Entry.duration]
        linarith
      · simp at he
    · rw [List.mem_cons] at he
      rcases he with rfl | he
      · simp only [Entry.duration]
        exact lt_of_lt_of_le (by norm_num) (le_max_right _ _)
      · exact ih f.«end» e he

/-- A list with no zero-duration filler has no two consecutive ones. -/
theorem chain'_no_zero_filler (l : List Entry)
    (h : ∀ e ∈ l, e.isZeroFiller = false) :
    l.Chain' (fun a b => ¬(a.isZeroFiller = true ∧ b.isZeroFiller = true)) := by
  induction l with
  | nil => exact List.chain'_nil
  | cons a l ih =>
    rw [List.chain'_cons']
    refine ⟨fun y _ hc => ?_, ih fun e he => h e (List.mem_cons_of_mem _ he)⟩
    have ha := h a (List.mem_cons_self a l)
    rw [ha] at hc
    exact absurd hc.1 (by simp)

/-- A positive-duration entry is not a zero-duration filler. -/
theorem isZeroFiller_of_pos (e : Entry) (h : 0 < e.duration) :
    e.isZeroFiller = false := by
  unfold Entry.isZeroFiller
  have : decide (e.duration = 0) = false := by
    simp only [decide_eq_false_iff_not]
    exact ne_of_gt h
  rw [this, Bool.and_false]

/-! ### C1 — total coverage of the timeline -/

/-- C1 (counterexample): the claim's 0.02 s tolerance fails on a legal input
(frame `start ≤ end`, `totalDuration` at least the last frame's end): a
single degenerate frame `[0, 0]` with `totalDuration = 0` is padded to the
`0.033` content floor, so the durations sum to `0.033`, off by more than
`0.02`. -/
theorem concat_sum_tolerance_cex :
    (⟨0, 0⟩ : FrameFile).start ≤ (⟨0, 0⟩ : FrameFile).«end» ∧
      (⟨0, 0⟩ : FrameFile).«end» ≤ (0:ℚ) ∧
        ((buildConcatFile [⟨0, 0⟩] 0).map Entry.duration).sum = 33/1000 ∧
          ¬ |((33:ℚ)/1000) - 0| ≤ 2/100 := by
  refine ⟨le_refl 0, le_refl 0, ?_, ?_⟩
  · norm_num [buildConcatFile, buildConcatGo, Entry.duration]
  · rw [sub_zero, abs_of_nonneg (by norm_num)]
    norm_num

/-- C1 (amended): for well-spaced frame lists — frames in order with each
gap (before a frame, and between the last frame and `totalDuration`) either
zero or above the `0.01` epsilon, and each frame at least the `0.033`
content floor long — the entry durations sum to `totalDuration` exactly
(hence within the 0.02 tolerance); every entry the cursor loop emits has
strictly positive duration, so the sequential timeline covers
`[0, totalDuration]` with no time represented twice, and no two consecutive
entries are zero-duration fillers. -/
theorem buildConcatFile_covers_exactly (frames : List FrameFile) (aD : ℚ)
    (h : okFrom 0 aD frames = true) :
    ((buildConcatFile frames aD).map Entry.duration).sum = aD ∧
      (∀ e ∈ buildConcatGo aD 0 frames, 0 < e.duration) ∧
        (buildConcatFile frames aD).Chain'
          (fun a b => ¬(a.isZeroFiller = true ∧ b.isZeroFiller = true)) := by
  have hsum := buildConcatGo_sum aD frames 0 h
  have hpos := buildConcatGo_pos aD frames
  refine ⟨?_, hpos 0, ?_⟩
  · unfold buildConcatFile
    by_cases hes : buildConcatGo aD 0 frames = []
    · rw [if_pos hes]
      simp [Entry.duration]
    · rw [if_neg hes, hsum]
      ring
  · unfold buildConcatFile
    by_cases hes : buildConcatGo aD 0 frames = []
    · rw [if_pos hes]
      exact List.chain'_singleton _
    · rw [if_neg hes]
      exact chain'_no_zero_filler _ fun e he => isZeroFiller_of_pos e (hpos 0 e he)

/-- Closed instance of the C1 theorem on two well-spaced frames. -/
theorem buildConcatFile_covers_exactly_witness :
    ((buildConcatFile [⟨0, 1⟩, ⟨3/2, 2⟩] 2).map Entry.duration).sum = 2 ∧
      (∀ e ∈ buildConcatGo 2 0 [⟨0, 1⟩, ⟨3/2, 2⟩], 0 < e.duration) ∧
        (buildConcatFile [⟨0, 1⟩, ⟨3/2, 2⟩] 2).Chain'
          (fun a b => ¬(a.isZeroFiller = true ∧ b.isZeroFiller = true)) :=
  buildConcatFile_covers_exactly [⟨0, 1⟩, ⟨3/2, 2⟩] 2
    (by simp only [okFrom, Bool.and_eq_true, decide_eq_true_eq]; norm_num)

/-! ### C6 — per-frame emission step -/

/-- C6 (counterexample): the claim's content floor "one output frame period,
`1/fps`" does not match the code: the floor is the constant `0.033`
regardless of the configured frame rate.  At the default `fps = 30` the
claimed floor is `1/30 = 0.0333…`, but a degenerate frame `[0, 0]` is
emitted with duration exactly `0.033`. -/
theorem minFloor_is_constant_cex :
    (buildConcatGo 0 0 [⟨0, 0⟩]).map Entry.duration = [33/1000] ∧
      (specMinEntries (1 / (fpsOf {} : ℚ)) 0 0 [⟨0, 0⟩]).map Entry.duration =
        [1/30] ∧
        ((33:ℚ)/1000) ≠ 1/30 := by
  refine ⟨?_, ?_, by norm_num⟩
  · norm_num [buildConcatGo, Entry.duration]
  · norm_num [specMinEntries, Entry.duration, fpsOf, jsOrN]

/-- C6 (amended): for each frame the cursor loop first emits a filler of
duration `frame.start − cursor` exactly when that gap exceeds the `0.01`
epsilon, then a content entry of duration
`max(frame.end − frame.start, 0.033)` — the floor is the constant `0.033`,
not `1/fps` — and recurses with the cursor advanced to `frame.end`. -/
theorem buildConcatGo_step (aD cursor : ℚ) (f : FrameFile) (rest : List FrameFile) :
    (1/100 < f.start - cursor →
      buildConcatGo aD cursor (f :: rest) =
        Entry.filler (f.start - cursor) ::
          Entry.content f (max (f.«end» - f.start) (33/1000)) ::
            buildConcatGo aD f.«end» rest) ∧
      (f.start - cursor ≤ 1/100 →
        buildConcatGo aD cursor (f :: rest) =
          Entry.content f (max (f.«end» - f.start) (33/1000)) ::
            buildConcatGo aD f.«end» rest) := by
  constructor
  · intro h
    simp only [buildConcatGo]
    rw [if_pos h]
    rfl
  · intro h
    simp only [buildConcatGo]
    rw [if_neg (not_lt.mpr h)]
    rfl

/-- Closed instance of the C6 theorem: a frame `[1, 2]` reached with the
cursor at `0` is preceded by a filler of its `1`-second gap. -/
theorem buildConcatGo_step_witness :
    buildConcatGo 2 0 [⟨1, 2⟩] =
      Entry.filler ((⟨1, 2⟩ : FrameFile).start - 0) ::
        Entry.content ⟨1, 2⟩
          (max ((⟨1, 2⟩ : FrameFile).«end» - (⟨1, 2⟩ : FrameFile).start) (33/1000)) ::
          buildConcatGo 2 (⟨1, 2⟩ : FrameFile).«end» [] :=
  (buildConcatGo_step 2 0 ⟨1, 2⟩ []).1 (by norm_num)

/-! ### Helper lemmas about the chunk grouping loop -/

/-- The grouping loop emits exactly the words it is fed: the concatenation
of the produced chunks' word lists is the open chunk followed by the
remaining input. -/
theorem chunkLoop_flatten (pT : ℚ) (mCS : ℕ) :
    ∀ (ws current : List Word),
      ((chunkLoop pT mCS current ws).map Chunk.words).flatten = current ++ ws := by
  intro ws
  induction ws with
  | nil =>
    intro current
    cases current with
    | nil => simp [chunkLoop]
    | cons c cs => simp [chunkLoop]
  | cons w ws ih =>
    intro current
    cases current with
    | nil =>
      show ((chunkLoop pT mCS [w] ws).map Chunk.words).flatten = [] ++ w :: ws
      rw [ih [w]]
      rfl
    | cons c cs =>
      simp only [chunkLoop]
      split
      · simp only [List.map_cons, List.flatten_cons, ih [w]]
        simp
      · rw [ih (c :: cs ++ [w])]
        simp

/-- Every chunk the grouping loop emits is nonempty, starts at its first
word's `start` and ends at its last word's `end`. -/
theorem chunkLoop_mem_shape (pT : ℚ) (mCS : ℕ) :
    ∀ (ws current : List Word), ∀ ch ∈ chunkLoop pT mCS current ws,
      ∃ (d : Word) (ds : List Word),
        ch = ⟨d :: ds, d.start, ((d :: ds).getLast (List.cons_ne_nil d ds)).«end»⟩ := by
  intro ws
  induction ws with
  | nil =>
    intro current ch hch
    cases current with
    | nil => simp [chunkLoop] at hch
    | cons c cs =>
      simp only [chunkLoop] at hch
      rw [List.mem_singleton] at hch
      exact ⟨c, cs, hch⟩
  | cons w ws ih =>
    intro current ch hch
    cases current with
    | nil => exact ih [w] ch hch
    | cons c cs =>
      simp only [chunkLoop] at hch
      split at hch
      · rw [List.mem_cons] at hch
        rcases hch with rfl | hch
        · exact ⟨c, cs, rfl⟩
        · exact ih [w] ch hch
      · exact ih (c :: cs ++ [w]) ch hch

/-- With an effective size limit of at least one, the grouping loop never
emits a chunk of more than `mCS` words (given the open chunk respects the
bound). -/
theorem chunkLoop_length_le (pT : ℚ) (mCS : ℕ) (h1 : 1 ≤ mCS) :
    ∀ (ws current : List Word), current.length ≤ mCS →
      ∀ ch ∈ chunkLoop pT mCS current ws, ch.words.length ≤ mCS := by
  intro ws
  induction ws with
  | nil =>
    intro current hcur ch hch
    cases current with
    | nil => simp [chunkLoop] at hch
    | cons c cs =>
      simp only [chunkLoop] at hch
      rw [List.mem_singleton] at hch
      subst hch
      exact hcur
  | cons w ws ih =>
    intro current hcur ch hch
    cases current with
    | nil => exact ih [w] (by simpa using h1) ch hch
    | cons c cs =>
      simp only [chunkLoop] at hch
      split at hch
      · rw [List.mem_cons] at hch
        rcases hch with rfl | hch
        · exact hcur
        · exact ih [w] (by simpa using h1) ch hch
      · rename_i hcond
        refine ih (c :: cs ++ [w]) ?_ ch hch
        rw [not_or, not_le] at hcond
        have : (c :: cs).length + 1 ≤ mCS := hcond.2
        simpa using this

/-- The first chunk the loop produces from a nonempty open chunk starts
with that chunk's first word. -/
theorem chunkLoop_head_start (pT : ℚ) (mCS : ℕ) :
    ∀ (ws : List Word) (c : Word) (cs : List Word),
      ((chunkLoop pT mCS (c :: cs) ws).head?.bind fun ch => ch.words.head?) = some c := by
  intro ws
  induction ws with
  | nil => intro c cs; simp [chunkLoop]
  | cons w ws ih =>
    intro c cs
    simp only [chunkLoop]
    split
    · simp
    · show ((chunkLoop pT mCS (c :: (cs ++ [w])) ws).head?.bind fun ch => ch.words.head?) =
        some c
      exact ih c (cs ++ [w])

/-- Adjacent chunks are only split at a pause above the threshold or at a
full chunk: the boundary words of consecutive output chunks always satisfy
the close condition of the loop. -/
theorem chunkLoop_chain (pT : ℚ) (mCS : ℕ) :
    ∀ (ws current : List Word),
      (chunkLoop pT mCS current ws).Chain'
        (fun c1 c2 => ∀ u v, c1.words.getLast? = some u → c2.words.head? = some v →
          (pT < v.start - u.«end» ∨ mCS ≤ c1.words.length)) := by
  intro ws
  induction ws with
  | nil =>
    intro current
    cases current with
    | nil => simp [chunkLoop]
    | cons c cs =>
      simp only [chunkLoop]
      exact List.chain'_singleton _
  | cons w ws ih =>
    intro current
    cases current with
    | nil => exact ih [w]
    | cons c cs =>
      simp only [chunkLoop]
      split
      · rename_i hcond
        rw [List.chain'_cons']
        refine ⟨?_, ih [w]⟩
        intro y hy u v hu hv
        have hhead := chunkLoop_head_start pT mCS ws w []
        rw [Option.mem_def] at hy
        rw [hy] at hhead
        simp only [Option.some_bind] at hhead
        have hv' : v = w := by
          have := hv.symm.trans hhead
          exact Option.some.inj this
        have hgl : (c :: cs).getLast? =
            some ((c :: cs).getLast (List.cons_ne_nil c cs)) :=
          List.getLast?_eq_getLast_of_ne_nil _
        have hu' : u = (c :: cs).getLast (List.cons_ne_nil c cs) := by
          have := hgl.symm.trans hu
          exact (Option.some.inj this).symm
        subst hv'
        subst hu'
        exact hcond
      · exact ih (c :: cs ++ [w])

/-! ### C2 — chunk-mode grouping discipline -/

/-- C2: in `chunk` mode, for every style and word sequence, (1) no unit
exceeds the effective `maxChunkSize` (the style value with the JS `|| 4`
defaulting, hence always ≥ 1), (2) consecutive units are split only when
the boundary gap exceeds the effective `pauseThreshold` or the left unit is
full — so two words with gap ≤ threshold are never split unless the size
limit forced it, and the triggering word starts the next unit rather than
joining the full one, (3) the units concatenate back to the input (so the
trailing open unit is flushed), and (4) the first input word opens the
first unit. -/
theorem buildChunks_chunk_correct (style : Style) (words : List Word) :
    (∀ ch ∈ buildChunks words style Mode.chunk,
      ch.words.length ≤ maxChunkSizeOf style) ∧
      (buildChunks words style Mode.chunk).Chain'
        (fun c1 c2 => ∀ u v, c1.words.getLast? = some u → c2.words.head? = some v →
          (pauseThresholdOf style < v.start - u.«end» ∨
            maxChunkSizeOf style ≤ c1.words.length)) ∧
        ((buildChunks words style Mode.chunk).map Chunk.words).flatten = words ∧
          ((buildChunks words style Mode.chunk).head?.bind fun ch => ch.words.head?) =
            words.head? := by
  have hm : 1 ≤ maxChunkSizeOf style := by
    unfold maxChunkSizeOf jsOrN
    cases style.textMaxChunkSize with
    | none => norm_num
    | some v =>
      show 1 ≤ if v = 0 then 4 else v
      split <;> omega
  have hb : buildChunks words style Mode.chunk =
      chunkLoop (pauseThresholdOf style) (maxChunkSizeOf style) [] words := by
    unfold buildChunks
    rw [if_neg (by decide)]
  refine ⟨?_, ?_, ?_, ?_⟩
  · rw [hb]
    exact chunkLoop_length_le _ _ hm words [] (by simp)
  · rw [hb]
    exact chunkLoop_chain _ _ words []
  · rw [hb, chunkLoop_flatten]
    rfl
  · rw [hb]
    cases words with
    | nil => rfl
    | cons w ws =>
      show ((chunkLoop (pauseThresholdOf style) (maxChunkSizeOf style)
        [w] ws).head?.bind fun ch => ch.words.head?) = some w
      exact chunkLoop_head_start _ _ ws w []

/-! ### C9 — the output is a partition -/

/-- C9: in every mode the chunk builder partitions the input — the units'
word lists concatenate back to exactly the input sequence — and every unit
is nonempty with `start` equal to its first word's `start` and `end` equal
to its last word's `end`. -/
theorem buildChunks_partition (style : Style) (mode : Mode) (words : List Word) :
    ((buildChunks words style mode).map Chunk.words).flatten = words ∧
      ∀ ch ∈ buildChunks words style mode,
        ch.words ≠ [] ∧ ch.words.head?.map Word.start = some ch.start ∧
          (ch.words.getLast?.map fun w => w.«end») = some ch.«end» := by
  by_cases hmode : mode = Mode.word
  · subst hmode
    unfold buildChunks
    rw [if_pos rfl]
    constructor
    · induction words with
      | nil => rfl
      | cons w ws ih => simpa using ih
    · intro ch hch
      rcases List.mem_map.mp hch with ⟨w, _, rfl⟩
      exact ⟨by simp, rfl, rfl⟩
  · unfold buildChunks
    rw [if_neg hmode]
    constructor
    · rw [chunkLoop_flatten]
      rfl
    · intro ch hch
      rcases chunkLoop_mem_shape _ _ words [] ch hch with ⟨d, ds, rfl⟩
      refine ⟨by simp, rfl, ?_⟩
      rw [List.getLast?_eq_getLast_of_ne_nil (List.cons_ne_nil d ds)]
      rfl

/-- Closed instance of the C2 theorem: the spec's end-to-end word sequence
is grouped without losing or reordering a word. -/
theorem buildChunks_chunk_correct_witness :
    ((buildChunks [⟨"hello", 0, 2/5⟩, ⟨"world", 1/2, 9/10⟩, ⟨"today", 2, 5/2⟩]
        {} Mode.chunk).map Chunk.words).flatten =
      [⟨"hello", 0, 2/5⟩, ⟨"world", 1/2, 9/10⟩, ⟨"today", 2, 5/2⟩] :=
  (buildChunks_chunk_correct {}
    [⟨"hello", 0, 2/5⟩, ⟨"world", 1/2, 9/10⟩, ⟨"today", 2, 5/2⟩]).2.2.1

/-- Closed instance of the C9 theorem in `word` mode on a one-word input. -/
theorem buildChunks_partition_witness :
    ((buildChunks [⟨"a", 0, 1⟩] {} Mode.word).map Chunk.words).flatten =
      [⟨"a", 0, 1⟩] :=
  (buildChunks_partition {} Mode.word [⟨"a", 0, 1⟩]).1
